import Mathlib

/-!
Verification of the short-Weierstrass Jacobian curve arithmetic and the
FFT evaluation-domain utilities of the `collaborative-zksnark` algebra
layer, as a shallow embedding in Lean 4.

Embedding conventions:

* The base field is an arbitrary Lean `Field F` with decidable equality;
  arkworks' opaque field capability is represented by `FieldCap`, which
  carries the two partial/ordering operations the code consumes
  (`flt`, the `<` comparison on canonical representatives, and `sqrt`,
  the partial square root).  The lawfulness facts the field contract
  promises are collected in `LawfulCap`.
* Byte-level encodings are represented at the (field element, flag)
  level: the field's canonical byte codec with flag channel is an
  external collaborator, so `serialize`/`deserialize` operate on the
  pairs the codec produces.  `SWFlags` is modelled from the spec
  (flag alphabet {finite+sign0, finite+sign1, infinity}), since
  `ark-serialize` is a sibling crate of this repository not under `src/`.
* Rust panics (failed `assert!`, integer division by zero) are modelled
  as `none`; recoverable failures as `Except.error`.
-/

namespace SWJac

variable {F : Type} [Field F] [DecidableEq F]

/-- Field capability consumed by the curve code: `flt a b` is the `a < b`
comparison on canonical representatives, `sqrt` the partial square root
(`none` on non-residues). -/
structure FieldCap (F : Type) where
  flt : F → F → Bool
  sqrt : F → Option F

/-- Lawfulness contract for the field capability: `flt` is a strict total
order and `sqrt` returns a square root exactly on quadratic residues. -/
structure LawfulCap {F : Type} [Field F] (cap : FieldCap F) : Prop where
  flt_irrefl : ∀ a, cap.flt a a = false
  flt_asymm : ∀ a b, cap.flt a b = true → cap.flt b a = false
  flt_total : ∀ a b, a ≠ b → cap.flt a b = true ∨ cap.flt b a = true
  sqrt_sound : ∀ z w, cap.sqrt z = some w → w * w = z
  sqrt_complete : ∀ z w, w * w = z → (cap.sqrt z).isSome = true

/-- Static curve parameters: coefficients of y² = x³ + a·x + b and the
big-endian bit decomposition of the scalar-field characteristic used by
the subgroup test (`BitIteratorBE::new(P::ScalarField::characteristic())`). -/
structure Curve (F : Type) where
  a : F
  b : F
  orderBits : List Bool

/-- Embedding of `GroupAffine`: the (x, y, infinity) affine representation. -/
structure GroupAffine (F : Type) where
  x : F
  y : F
  infinity : Bool
deriving DecidableEq

/-- Embedding of `GroupProjective`: Jacobian (x, y, z) with z = 0 the identity. -/
structure GroupProjective (F : Type) where
  x : F
  y : F
  z : F
deriving DecidableEq

/-- `GroupAffine::zero()`: `Self::new(zero, one, true)`. -/
def zeroA : GroupAffine F := ⟨0, 1, true⟩

/-- `GroupProjective::zero()`: `Self::new(one, one, zero)`. -/
def zeroP : GroupProjective F := ⟨1, 1, 0⟩

/-- Derived structural `PartialEq` on `GroupAffine` (the `derivative`
attribute generates field-by-field comparison). -/
def affineEq (p q : GroupAffine F) : Bool :=
  decide (p.x = q.x) && decide (p.y = q.y) && (p.infinity == q.infinity)

/-- `PartialEq for GroupProjective`: both zero, or cross-multiplied
coordinates agree (`X·Z'² = X'·Z²` and `Y·Z'³ = Y'·Z³`). -/
def projEq (p q : GroupProjective F) : Bool :=
  if p.z = 0 then decide (q.z = 0)
  else if q.z = 0 then false
  else if p.x * (q.z * q.z) ≠ q.x * (p.z * p.z) then false
  else decide (p.y * ((q.z * q.z) * q.z) = q.y * ((p.z * p.z) * p.z))

/-- `GroupAffine::get_point_from_x(x, greatest)`: solve y² = x³ + a·x + b,
then pick between the root `y` returned by the sqrt capability and `-y`
via `if (y < negy) ^ greatest { y } else { negy }`. -/
def get_point_from_x (C : Curve F) (cap : FieldCap F) (x : F) (greatest : Bool) :
    Option (GroupAffine F) :=
  let x3b := x * x * x + C.a * x + C.b
  (cap.sqrt x3b).map (fun y =>
    let negy := -y
    ⟨x, if Bool.xor (cap.flt y negy) greatest then y else negy, false⟩)

/-- `GroupAffine::is_on_curve`: identity is on curve; otherwise y² = x³ + a·x + b. -/
def is_on_curve (C : Curve F) (p : GroupAffine F) : Bool :=
  if p.infinity then true
  else decide (p.y * p.y = p.x * p.x * p.x + C.a * p.x + C.b)

/-- Fast doubling branch of `GroupProjective::double_in_place`, valid when
`COEFF_A == 0` (dbl-2009-l with a = 0). -/
def double_body_a0 (p : GroupProjective F) : GroupProjective F :=
  let a := p.x * p.x
  let b := p.y * p.y
  let c := b * b
  let d := 2 * ((p.x + b) * (p.x + b) - a - c)
  let e := a + (a + a)
  let f := e * e
  ⟨f - d - d, (d - (f - d - d)) * e - 8 * c, 2 * (p.z * p.y)⟩

/-- General doubling branch of `GroupProjective::double_in_place`
(dbl-2009-l for arbitrary a). -/
def double_body_generic (C : Curve F) (p : GroupProjective F) : GroupProjective F :=
  let xx := p.x * p.x
  let yy := p.y * p.y
  let yyyy := yy * yy
  let zz := p.z * p.z
  let s := 2 * ((p.x + yy) * (p.x + yy) - xx - yyyy)
  let m := xx + xx + xx + C.a * (zz * zz)
  let t := m * m - 2 * s
  ⟨t, m * (s - t) - 8 * yyyy, (p.y + p.z) * (p.y + p.z) - yy - zz⟩

/-- `GroupProjective::double_in_place`: identity maps to itself, then the
a = 0 fast path or the general Jacobian doubling formula. -/
def double_in_place (C : Curve F) (p : GroupProjective F) : GroupProjective F :=
  if p.z = 0 then p
  else if C.a = 0 then double_body_a0 p
  else double_body_generic C p

/-- Doubling with the a = 0 fast path disabled: the general formula applied
unconditionally (used to cross-check the specialization). -/
def double_in_place_generic (C : Curve F) (p : GroupProjective F) : GroupProjective F :=
  if p.z = 0 then p
  else double_body_generic C p

/-- `GroupProjective::add_assign_mixed` (projective += affine, madd-2007-bl):
short-circuits identities, redirects coincident points to doubling. -/
def add_assign_mixed (C : Curve F) (p : GroupProjective F) (q : GroupAffine F) :
    GroupProjective F :=
  if q.infinity then p
  else if p.z = 0 then ⟨q.x, q.y, 1⟩
  else
    let z1z1 := p.z * p.z
    let u2 := q.x * z1z1
    let s2 := (q.y * p.z) * z1z1
    if p.x = u2 ∧ p.y = s2 then double_in_place C p
    else
      let h := u2 - p.x
      let hh := h * h
      let i := 4 * hh
      let j := h * i
      let r := 2 * (s2 - p.y)
      let v := p.x * i
      let x3 := r * r - j - v - v
      ⟨x3, (v - x3) * r - 2 * (p.y * j), (p.z + h) * (p.z + h) - z1z1 - hh⟩

/-- `AddAssign for GroupProjective` (add-2007-bl): short-circuits identities,
redirects coincident points to doubling. -/
def add_assign (C : Curve F) (p q : GroupProjective F) : GroupProjective F :=
  if p.z = 0 then q
  else if q.z = 0 then p
  else
    let z1z1 := p.z * p.z
    let z2z2 := q.z * q.z
    let u1 := p.x * z2z2
    let u2 := q.x * z1z1
    let s1 := p.y * q.z * z2z2
    let s2 := q.y * p.z * z1z1
    if u1 = u2 ∧ s1 = s2 then double_in_place C p
    else
      let h := u2 - u1
      let i := (2 * h) * (2 * h)
      let j := h * i
      let r := 2 * (s2 - s1)
      let v := u1 * i
      let x3 := r * r - j - 2 * v
      ⟨x3, r * (v - x3) - 2 * (s1 * j),
        ((p.z + q.z) * (p.z + q.z) - z1z1 - z2z2) * h⟩

/-- `GroupAffine::mul_bits`: big-endian double-and-add, skipping leading
zero bits, accumulating in projective form. -/
def mul_bits (C : Curve F) (p : GroupAffine F) (bits : List Bool) : GroupProjective F :=
  (bits.dropWhile (fun b => !b)).foldl
    (fun res i =>
      let res := double_in_place C res
      if i then add_assign_mixed C res p else res)
    zeroP

/-- `GroupAffine::is_in_correct_subgroup_assuming_on_curve`: multiply by the
scalar-field characteristic and test for the identity. -/
def is_in_correct_subgroup_assuming_on_curve (C : Curve F) (p : GroupAffine F) : Bool :=
  decide ((mul_bits C p C.orderBits).z = 0)

/-- `From<GroupAffine> for GroupProjective`: identity to (1,1,0), else z = 1. -/
def toProjective (p : GroupAffine F) : GroupProjective F :=
  if p.infinity then zeroP else ⟨p.x, p.y, 1⟩

/-- `From<GroupProjective> for GroupAffine`: identity, already-normalized, or
divide by z² and z³. -/
def toAffine (p : GroupProjective F) : GroupAffine F :=
  if p.z = 0 then zeroA
  else if p.z = 1 then ⟨p.x, p.y, false⟩
  else
    let zinv := p.z⁻¹
    let zinv_squared := zinv * zinv
    ⟨p.x * zinv_squared, p.y * (zinv_squared * zinv), false⟩

/-- Modelled from the spec: the flag alphabet of the compressed/uncompressed
point codecs, `{finite+sign0, finite+sign1, infinity}` (`ark_serialize::SWFlags`
lives in a sibling crate of this repository, outside `src/`). -/
inductive SWFlags where
  | infinity
  | positiveY
  | negativeY
deriving DecidableEq

/-- `SWFlags::is_infinity`. -/
def SWFlags.is_infinity : SWFlags → Bool
  | .infinity => true
  | _ => false

/-- `SWFlags::is_positive`: `none` on the infinity flag, else the sign bit. -/
def SWFlags.is_positive : SWFlags → Option Bool
  | .infinity => none
  | .positiveY => some true
  | .negativeY => some false

/-- `SWFlags::from_y_sign`. -/
def SWFlags.from_y_sign (is_pos : Bool) : SWFlags :=
  if is_pos then .positiveY else .negativeY

/-- Serialization failures (`ark_serialize::SerializationError::InvalidData`,
plus a marker for the unreachable `unwrap` panic in `deserialize`). -/
inductive SerializationError where
  | invalidData
  | badFlags
deriving DecidableEq

/-- `CanonicalSerialize::serialize` for `GroupAffine` at the
(field element, flag) level: zero with the infinity flag for the identity,
else x with the sign flag derived from `y > -y`. -/
def serializeA (cap : FieldCap F) (p : GroupAffine F) : F × SWFlags :=
  if p.infinity then (0, SWFlags.infinity)
  else (p.x, SWFlags.from_y_sign (cap.flt (-p.y) p.y))

/-- `CanonicalDeserialize::deserialize` for `GroupAffine`: the infinity flag
yields the identity (the accompanying field element is not inspected);
otherwise reconstruct y from x via `get_point_from_x` and re-validate
prime-order-subgroup membership. -/
def deserializeA (C : Curve F) (cap : FieldCap F) (v : F × SWFlags) :
    Except SerializationError (GroupAffine F) :=
  if v.2.is_infinity then .ok zeroA
  else
    match v.2.is_positive with
    | none => .error .badFlags
    | some greatest =>
      match get_point_from_x C cap v.1 greatest with
      | none => .error .invalidData
      | some p =>
        if is_in_correct_subgroup_assuming_on_curve C p then .ok p
        else .error .invalidData

/-- `CanonicalSerialize::serialize_uncompressed` for `GroupAffine`: x, then y
carrying the infinity flag (or the default sign flag for finite points). -/
def serialize_uncompressedA (p : GroupAffine F) : F × F × SWFlags :=
  (p.x, p.y, if p.infinity then SWFlags.infinity else SWFlags.positiveY)

/-- `CanonicalDeserialize::deserialize_unchecked` for `GroupAffine`: parse x,
y and the flags and build the point directly, with no validation at all. -/
def deserialize_uncheckedA {F : Type} (v : F × F × SWFlags) :
    Except SerializationError (GroupAffine F) :=
  .ok ⟨v.1, v.2.1, v.2.2.is_infinity⟩

/-- `CanonicalDeserialize::deserialize_uncompressed` for `GroupAffine`:
the unchecked parse followed by the subgroup re-validation. -/
def deserialize_uncompressedA (C : Curve F) (v : F × F × SWFlags) :
    Except SerializationError (GroupAffine F) :=
  match deserialize_uncheckedA v with
  | .error e => .error e
  | .ok p =>
    if is_in_correct_subgroup_assuming_on_curve C p then .ok p
    else .error .invalidData

/-- `AffineCurve::from_random_bytes`: the argument is the output of the
field's `from_random_bytes_with_flags` codec (an external capability).
Zero x with the infinity flag parses as the identity; a sign flag invokes
`get_point_from_x`; the infinity flag with anything else is rejected. -/
def from_random_bytes (C : Curve F) (cap : FieldCap F)
    (parsed : Option (F × SWFlags)) : Option (GroupAffine F) :=
  parsed.bind (fun xf =>
    if xf.1 = 0 ∧ xf.2.is_infinity = true then some zeroA
    else
      match xf.2.is_positive with
      | some y_is_positive => get_point_from_x C cap xf.1 y_is_positive
      | none => none)

/-- Modelled from the spec: `ark_ff::batch_inversion` (a sibling crate of
this repository, outside `src/`) amortizes one inversion over a vector via
running products and replaces every nonzero entry by its inverse, skipping
zero entries; with Lean's convention `0⁻¹ = 0`, that is a pointwise inverse. -/
def batch_inversion (l : List F) : List F := l.map (fun z => z⁻¹)

/-- `ProjectiveCurve::is_normalized`: identity or z = 1. -/
def is_normalized (p : GroupProjective F) : Bool :=
  decide (p.z = 0) || decide (p.z = 1)

/-- `GroupProjective::batch_normalization`: batch-invert the z coordinates,
then rescale every not-already-normalized point by z⁻² and z⁻³. -/
def batch_normalization (v : List (GroupProjective F)) : List (GroupProjective F) :=
  (v.zip (batch_inversion (v.map (fun g => g.z)))).map (fun gz =>
    if is_normalized gz.1 then gz.1
    else
      let z2 := gz.2 * gz.2
      ⟨gz.1.x * z2, gz.1.y * (z2 * gz.2), 1⟩)

/-- Sequential pass of `distribute_powers_and_mul_by_const`: the running
product `pow` maintains the invariant `pow = c·g^i` at step i. -/
def distribute_powers_aux (g : F) : List F → F → List F
  | [], _ => []
  | coeff :: rest, pow => (coeff * pow) :: distribute_powers_aux g rest (pow * g)

/-- `EvaluationDomain::distribute_powers_and_mul_by_const` (sequential):
multiply the i-th element of `coeffs` with `c·g^i`. -/
def distribute_powers_and_mul_by_const (coeffs : List F) (g c : F) : List F :=
  distribute_powers_aux g coeffs c

/-- Split a list into chunks of `k + 1` elements (the code's
`num_elem_per_thread` is `max(len/cpus, 1024)`, always positive; the
`k + 1` parametrization keeps the model total over all chunk sizes). -/
def chunksList {α : Type} (k : Nat) : List α → List (List α)
  | [] => []
  | x :: xs => (x :: xs.take k) :: chunksList k (xs.drop k)
termination_by l => l.length
decreasing_by simp [List.length_drop]; omega

/-- Parallel chunked `distribute_powers_and_mul_by_const`: each chunk of
size `k + 1` starts from the offset `c · g^(chunk start)` computed by
exponentiation, then runs the sequential pass inside the chunk. -/
def distribute_powers_par (coeffs : List F) (g c : F) (k : Nat) : List F :=
  (((chunksList k coeffs).enum).map
    (fun q => distribute_powers_aux g q.2 (c * g ^ ((k + 1) * q.1)))).flatten

/-- Modelled from the spec: `evaluate_vanishing_polynomial(tau)` of a
size-n subgroup domain is `tau^n − 1` (the radix-2 domain implementation
lives outside `src/`; the spec states the vanishing polynomial is Xⁿ − 1
and its evaluation one exponentiation and subtraction). -/
def evaluate_vanishing_polynomial (n : Nat) (tau : F) : F := tau ^ n - 1

/-- `EvaluationDomain::sample_element_outside_domain`: draw from the
(public or private) randomness source, rejecting draws on which the
vanishing polynomial is zero.  `draws` is the stream the selected source
produces; exhausting it models a never-terminating rejection loop. -/
def sample_element_outside_domain (vanish : F → F) (public_rng : Bool)
    (draws : List F) : Option F :=
  match draws with
  | [] => none
  | t :: rest =>
    if vanish t = 0 then sample_element_outside_domain vanish public_rng rest
    else some t

/-- `EvaluationDomain::reindex_by_subdomain` on sizes and index; the
`assert!(self.size() >= other.size())` failure and the two possible
divisions by zero (Rust panics) are modelled as `none`. -/
def reindex_by_subdomain (selfSize otherSize index : Nat) : Option Nat :=
  if selfSize < otherSize then none
  else if otherSize = 0 then none
  else
    let period := selfSize / otherSize
    if index < otherSize then some (index * period)
    else
      let i := index - otherSize
      let x := period - 1
      if x = 0 then none
      else some (i + i / x + 1)

instance {ε α : Type} [DecidableEq ε] [DecidableEq α] : DecidableEq (Except ε α) := fun a b =>
  match a, b with
  | .error e, .error f =>
    decidable_of_iff (e = f) ⟨by rintro rfl; rfl, by intro h; cases h; rfl⟩
  | .error _, .ok _ => .isFalse (by intro h; cases h)
  | .ok _, .error _ => .isFalse (by intro h; cases h)
  | .ok u, .ok v =>
    decidable_of_iff (u = v) ⟨by rintro rfl; rfl, by intro h; cases h; rfl⟩

instance : Fact (Nat.Prime 7) := ⟨by norm_num⟩

/-- Concrete `<` capability over ℤ/7: comparison of canonical representatives. -/
def fltZ7 (a b : ZMod 7) : Bool := decide (a.val < b.val)

/-- Concrete partial square root over ℤ/7 by exhaustive search, returning the
root with the smallest representative when one exists. -/
def sqrtZ7 (z : ZMod 7) : Option (ZMod 7) :=
  ((List.range 7).find? (fun n => decide ((n : ZMod 7) * (n : ZMod 7) = z))).map
    (fun n => (n : ZMod 7))

/-- The bundled ℤ/7 field capability. -/
def capZ7 : FieldCap (ZMod 7) := ⟨fltZ7, sqrtZ7⟩

/-- Toy curve y² = x³ + 1 over ℤ/7; `orderBits` is the big-endian bit
pattern of 2, the order of the subgroup generated by the 2-torsion point
(3, 0) used as the concrete witness. -/
def curveZ7 : Curve (ZMod 7) := ⟨0, 1, [true, false]⟩

/-- The ℤ/7 capability satisfies the field contract. -/
theorem lawful_capZ7 : LawfulCap capZ7 :=
  ⟨by decide, by decide, by decide, by decide, by decide⟩

/-- C4 counterexample: the derived `PartialEq` on `GroupAffine` is
structural, so two points that both carry `infinity = true` but store
different x coordinates are not equal, contradicting the claim that any
two infinity points are equal regardless of stored coordinates. -/
theorem c4_infinity_eq_counterexample :
    (⟨0, 1, true⟩ : GroupAffine (ZMod 7)).infinity = true ∧
    (⟨1, 1, true⟩ : GroupAffine (ZMod 7)).infinity = true ∧
    affineEq (⟨0, 1, true⟩ : GroupAffine (ZMod 7)) ⟨1, 1, true⟩ = false := by
  decide

/-- C4 (amended): equality of affine points is the structural, derived one —
two points are equal exactly when their x, their y and their infinity flags
all agree; stored coordinates of identity points are compared too. -/
theorem c4_affine_eq_structural {F : Type} [Field F] [DecidableEq F]
    (p q : GroupAffine F) :
    affineEq p q = true ↔ p.x = q.x ∧ p.y = q.y ∧ p.infinity = q.infinity := by
  simp [affineEq, and_assoc]

/-- C5 counterexample: `reindex_by_subdomain` with sizes 6 and 4 — a pair
where the subdomain size does not divide the domain size — returns the
ordinary value 0 at index 0 instead of aborting. -/
theorem c5_reindex_counterexample :
    reindex_by_subdomain 6 4 0 = some 0 ∧ ¬ (4 ∣ 6) := by
  decide

/-- C5 (amended): `reindex_by_subdomain` aborts exactly when the asserted
inequality `other.size() ≤ self.size()` fails, when `other.size()` is zero
(division by zero computing the period), or when the floored size ratio is 1
and the index falls outside the subdomain (division by zero in the bucketing
branch).  A non-divisible size pair with `0 < other.size() ≤ self.size()`
otherwise produces an ordinary return value computed from the floored ratio. -/
theorem c5_reindex_abort_iff (s o idx : Nat) :
    reindex_by_subdomain s o idx = none ↔
      s < o ∨ o = 0 ∨ (o ≤ idx ∧ s / o = 1) := by
  unfold reindex_by_subdomain
  split_ifs with h1 h2 h3
  · simp [h1]
  · simp [h2]
  · have hper : 1 ≤ s / o :=
      (Nat.one_le_div_iff (Nat.pos_of_ne_zero h2)).2 (Nat.le_of_not_lt h1)
    simp only [reduceCtorEq, false_iff]
    omega
  · have hper : 1 ≤ s / o :=
      (Nat.one_le_div_iff (Nat.pos_of_ne_zero h2)).2 (Nat.le_of_not_lt h1)
    dsimp only
    split_ifs with h4
    · simp only [true_iff]
      omega
    · simp only [reduceCtorEq, false_iff]
      omega

/-- C9: whenever `sample_element_outside_domain` returns an element, the
vanishing polynomial of the domain is nonzero at it — for either value of
the public/private randomness selector and any stream of draws. -/
theorem c9_sample_outside_domain {F : Type} [Field F] [DecidableEq F]
    (n : Nat) (public_rng : Bool) (draws : List F) (t : F)
    (h : sample_element_outside_domain (evaluate_vanishing_polynomial n)
        public_rng draws = some t) :
    evaluate_vanishing_polynomial n t ≠ 0 := by
  induction draws with
  | nil => simp [sample_element_outside_domain] at h
  | cons d rest ih =>
    rw [sample_element_outside_domain] at h
    by_cases hd : evaluate_vanishing_polynomial n d = 0
    · rw [if_pos hd] at h
      exact ih h
    · rw [if_neg hd] at h
      cases h
      exact hd

/-- C9 witness: over ℤ/7 with the size-4 domain, the stream [1, 3] rejects
the domain element 1 and returns 3, on which X⁴ − 1 evaluates to 3 ≠ 0. -/
theorem c9_sample_outside_domain_witness :
    sample_element_outside_domain (evaluate_vanishing_polynomial 4) true
      [(1 : ZMod 7), 3] = some 3 ∧
    evaluate_vanishing_polynomial 4 (3 : ZMod 7) ≠ 0 :=
  ⟨by decide, c9_sample_outside_domain 4 true [(1 : ZMod 7), 3] 3 (by decide)⟩

/-- C10: the unchecked affine deserialization path performs no validation —
for any parsed x, y and flags (over any coefficient type) it returns `Ok`
with the point `(x, y, infinity-flag)`; in particular over ℤ/7 it accepts
the point (5, 1), which is neither on the curve y² = x³ + 1 nor in the
prime-order subgroup. -/
theorem c10_deserialize_unchecked_no_validation :
    (∀ (α : Type) (x y : α) (f : SWFlags),
      deserialize_uncheckedA (x, y, f) = .ok ⟨x, y, f.is_infinity⟩) ∧
    deserialize_uncheckedA ((5 : ZMod 7), (1 : ZMod 7), SWFlags.positiveY) =
      .ok ⟨5, 1, false⟩ ∧
    is_on_curve curveZ7 ⟨5, 1, false⟩ = false ∧
    is_in_correct_subgroup_assuming_on_curve curveZ7 ⟨5, 1, false⟩ = false :=
  ⟨fun _ _ _ _ => rfl, by decide, by decide, by decide⟩

/-- Root-selection helper: the `if (y < -y) ^ greatest` choice depends only on
the square of the candidate root, so the two square roots of the same value
select the same point. -/
theorem select_eq_of_sq {F : Type} [Field F] [DecidableEq F] {cap : FieldCap F}
    (hl : LawfulCap cap) (w y : F) (g : Bool) (hsq : w * w = y * y) :
    (if Bool.xor (cap.flt w (-w)) g then w else -w) =
    (if Bool.xor (cap.flt y (-y)) g then y else -y) := by
  have h0 : (w - y) * (w + y) = 0 := by ring_nf; linear_combination hsq
  rcases mul_eq_zero.1 h0 with h | h
  · rw [sub_eq_zero.1 h]
  · have hw : w = -y := eq_neg_of_add_eq_zero_left h
    subst hw
    by_cases hy : (-y : F) = y
    · rw [neg_neg, hy]
    · have hne : y ≠ -y := fun h => hy h.symm
      rw [neg_neg]
      cases hb : cap.flt y (-y) with
      | true =>
        have hba : cap.flt (-y) y = false := hl.flt_asymm _ _ hb
        rw [hba]
        cases g <;> simp
      | false =>
        have hba : cap.flt (-y) y = true := by
          rcases hl.flt_total y (-y) hne with h | h
          · rw [h] at hb; cases hb
          · exact h
        rw [hba]
        cases g <;> simp

/-- On a quadratic residue, `get_point_from_x` returns the point whose
y-coordinate is `y` when `(y < -y) XOR greatest` is true and `-y` otherwise,
for either square root y of the right-hand side. -/
theorem get_point_from_x_of_root {F : Type} [Field F] [DecidableEq F]
    (C : Curve F) (cap : FieldCap F) (hl : LawfulCap cap) (x : F) (g : Bool)
    (y : F) (hy : y * y = x * x * x + C.a * x + C.b) :
    get_point_from_x C cap x g =
      some ⟨x, if Bool.xor (cap.flt y (-y)) g then y else -y, false⟩ := by
  have hs : (cap.sqrt (x * x * x + C.a * x + C.b)).isSome = true :=
    hl.sqrt_complete _ y hy
  obtain ⟨w, hw⟩ := Option.isSome_iff_exists.1 hs
  have hww : w * w = y * y := by rw [hl.sqrt_sound _ _ hw, hy]
  unfold get_point_from_x
  dsimp only
  rw [hw, Option.map_some', select_eq_of_sq hl w y g hww]

/-- On a non-residue, `get_point_from_x` returns `none`. -/
theorem get_point_from_x_of_nonresidue {F : Type} [Field F] [DecidableEq F]
    (C : Curve F) (cap : FieldCap F) (hl : LawfulCap cap) (x : F) (g : Bool)
    (hnr : ∀ w : F, w * w ≠ x * x * x + C.a * x + C.b) :
    get_point_from_x C cap x g = none := by
  unfold get_point_from_x
  dsimp only
  cases hq : cap.sqrt (x * x * x + C.a * x + C.b) with
  | some w => exact absurd (hl.sqrt_sound _ _ hq) (hnr w)
  | none => rfl

/-- C1 counterexample: over ℤ/7 on y² = x³ + 1, the square roots of
1³ + 0·1 + 1 = 2 are exactly 3 and 4; the claim's rule — evaluate
`(y < -y) XOR sign_bit`, select y when false and -y when true — predicts
the y-coordinate 4 for either root at sign_bit = false, but
`get_point_from_x(1, false)` returns the point (1, 3). -/
theorem c1_point_from_x_counterexample :
    get_point_from_x curveZ7 capZ7 1 false = some ⟨1, 3, false⟩ ∧
    (3 : ZMod 7) * 3 = 1 * 1 * 1 + curveZ7.a * 1 + curveZ7.b ∧
    (4 : ZMod 7) * 4 = 1 * 1 * 1 + curveZ7.a * 1 + curveZ7.b ∧
    (if Bool.xor (capZ7.flt 3 (-3)) false then -(3 : ZMod 7) else 3) = 4 ∧
    (if Bool.xor (capZ7.flt 4 (-4)) false then -(4 : ZMod 7) else 4) = 4 ∧
    ¬ ((3 : ZMod 7) = 4) := by
  decide

/-- C1 (amended): for every x such that x³ + a·x + b is a quadratic residue
with square root y, `get_point_from_x(x, sign_bit)` returns `Some` point
whose y-coordinate is chosen by evaluating `(y < -y) XOR sign_bit`,
selecting y when that expression is TRUE and -y when it is FALSE (the
claim had the two cases swapped); when x³ + a·x + b is a non-residue it
returns `none`. -/
theorem c1_point_from_x_selection {F : Type} [Field F] [DecidableEq F]
    (C : Curve F) (cap : FieldCap F) (hl : LawfulCap cap) (x : F) (sign_bit : Bool) :
    (∀ y : F, y * y = x * x * x + C.a * x + C.b →
      get_point_from_x C cap x sign_bit =
        some ⟨x, if Bool.xor (cap.flt y (-y)) sign_bit then y else -y, false⟩) ∧
    ((∀ w : F, w * w ≠ x * x * x + C.a * x + C.b) →
      get_point_from_x C cap x sign_bit = none) :=
  ⟨fun y hy => get_point_from_x_of_root C cap hl x sign_bit y hy,
    fun hnr => get_point_from_x_of_nonresidue C cap hl x sign_bit hnr⟩

/-- C1 witness: the amended selection rule evaluated over ℤ/7 at x = 1,
root y = 3, sign_bit = false. -/
theorem c1_point_from_x_selection_witness :
    LawfulCap capZ7 ∧
    (3 : ZMod 7) * 3 = 1 * 1 * 1 + curveZ7.a * 1 + curveZ7.b ∧
    get_point_from_x curveZ7 capZ7 1 false =
      some ⟨1, if Bool.xor (capZ7.flt 3 (-3)) false then 3 else -3, false⟩ :=
  ⟨lawful_capZ7, by decide,
    (c1_point_from_x_selection curveZ7 capZ7 lawful_capZ7 1 false).1 3 (by decide)⟩

/-- Reflexivity of the projective cross-multiplication equality. -/
theorem proj_eq_refl (p : GroupProjective F) : projEq p p = true := by
  unfold projEq
  by_cases h : p.z = 0
  · simp [h]
  · simp [h]

/-- Unfolding `batch_normalization` one element at a time: zipping with the
batch-inverted z column acts pointwise. -/
theorem batch_normalization_cons (p : GroupProjective F) (v : List (GroupProjective F)) :
    batch_normalization (p :: v) =
      (if is_normalized p then p
       else ⟨p.x * (p.z⁻¹ * p.z⁻¹), p.y * ((p.z⁻¹ * p.z⁻¹) * p.z⁻¹), 1⟩) ::
        batch_normalization v := by
  simp [batch_normalization, batch_inversion]

/-- C6: `batch_normalization` produces, at every position, the same point
(under the projective cross-multiplication equality the repository uses)
as converting that single projective point to affine individually and
re-embedding it with z = 1; the lists also have equal length
(`List.Forall₂` enforces both). -/
theorem c6_batch_normalization_pointwise (v : List (GroupProjective F)) :
    List.Forall₂ (fun p q => projEq p q = true) (batch_normalization v)
      (v.map (fun g => toProjective (toAffine g))) := by
  induction v with
  | nil => exact List.Forall₂.nil
  | cons p v ih =>
    rw [batch_normalization_cons, List.map_cons]
    refine List.Forall₂.cons ?_ ih
    by_cases h0 : p.z = 0
    · simp [is_normalized, h0, toAffine, toProjective, zeroA, zeroP, projEq]
    · by_cases h1 : p.z = 1
      · obtain ⟨px, py, pz⟩ := p
        simp only at h0 h1
        subst h1
        have hn : is_normalized (⟨px, py, (1 : F)⟩ : GroupProjective F) = true := by
          simp [is_normalized]
        have haff : toAffine (⟨px, py, (1 : F)⟩ : GroupProjective F) = ⟨px, py, false⟩ := by
          simp [toAffine]
        simp [hn, haff, toProjective, proj_eq_refl]
      · obtain ⟨px, py, pz⟩ := p
        simp only at h0 h1
        have hnorm : is_normalized (⟨px, py, pz⟩ : GroupProjective F) = false := by
          simp [is_normalized, h0, h1]
        have haff : toAffine (⟨px, py, pz⟩ : GroupProjective F) =
            ⟨px * (pz⁻¹ * pz⁻¹), py * ((pz⁻¹ * pz⁻¹) * pz⁻¹), false⟩ := by
          simp [toAffine, h0, h1]
        simp [hnorm, haff, toProjective, proj_eq_refl]

/-- When the curve coefficient a is zero, the fast doubling branch computes
exactly the same coordinate triple as the general Jacobian doubling formula. -/
theorem double_fast_eq_generic (C : Curve F) (ha : C.a = 0) (p : GroupProjective F) :
    double_in_place C p = double_in_place_generic C p := by
  unfold double_in_place double_in_place_generic
  by_cases hz : p.z = 0
  · simp [hz]
  · rw [if_neg hz, if_neg hz, if_pos ha]
    unfold double_body_a0 double_body_generic
    rw [ha, GroupProjective.mk.injEq]
    refine ⟨by ring, by ring, by ring⟩

/-- Adding a projective point to itself takes the coincidence branch of the
addition formula and literally calls the doubling routine. -/
theorem add_self_eq_double (C : Curve F) (p : GroupProjective F) :
    add_assign C p p = double_in_place C p := by
  unfold add_assign
  by_cases hz : p.z = 0
  · simp [hz, double_in_place]
  · rw [if_neg hz, if_neg hz, if_pos ⟨rfl, rfl⟩]

/-- C7: on a curve with COEFF_A = 0, for every projective point P the
specialized a = 0 branch of `double_in_place` agrees with the general
Jacobian doubling formula under the projective equality, and both equal
P + P as computed by the full addition routine. -/
theorem c7_double_fast_path (C : Curve F) (ha : C.a = 0) (p : GroupProjective F) :
    projEq (double_in_place C p) (double_in_place_generic C p) = true ∧
    projEq (double_in_place C p) (add_assign C p p) = true := by
  constructor
  · rw [double_fast_eq_generic C ha p]
    exact proj_eq_refl _
  · rw [add_self_eq_double C p]
    exact proj_eq_refl _

/-- C7 witness: the toy a = 0 curve y² = x³ + 1 over ℤ/7 at the point
(2, 3, 1). -/
theorem c7_double_fast_path_witness :
    curveZ7.a = 0 ∧
    (projEq (double_in_place curveZ7 ⟨2, 3, 1⟩) (double_in_place_generic curveZ7 ⟨2, 3, 1⟩) =
        true ∧
      projEq (double_in_place curveZ7 ⟨2, 3, 1⟩) (add_assign curveZ7 ⟨2, 3, 1⟩ ⟨2, 3, 1⟩) =
        true) :=
  ⟨rfl, c7_double_fast_path curveZ7 rfl ⟨2, 3, 1⟩⟩

omit [DecidableEq F] in
/-- The running-product pass multiplies the i-th element by `pw · g^i`. -/
theorem distribute_powers_aux_getElem (g : F) :
    ∀ (l : List F) (pw : F) (i : Nat),
      (distribute_powers_aux g l pw)[i]? = (l[i]?).map (fun a => a * (pw * g ^ i)) := by
  intro l
  induction l with
  | nil => intro pw i; simp [distribute_powers_aux]
  | cons a t ih =>
    intro pw i
    cases i with
    | zero => simp [distribute_powers_aux]
    | succ n =>
      rw [distribute_powers_aux]
      simp only [List.getElem?_cons_succ]
      rw [ih (pw * g) n]
      congr 1
      funext b
      ring

omit [DecidableEq F] in
/-- The running-product pass splits over list concatenation, the second part
starting from the offset advanced by the first part's length. -/
theorem distribute_powers_aux_append (g : F) (l₁ l₂ : List F) :
    ∀ pw : F,
      distribute_powers_aux g (l₁ ++ l₂) pw =
        distribute_powers_aux g l₁ pw ++
          distribute_powers_aux g l₂ (pw * g ^ l₁.length) := by
  induction l₁ with
  | nil => intro pw; simp [distribute_powers_aux]
  | cons a t ih =>
    intro pw
    simp only [List.cons_append, distribute_powers_aux, List.length_cons, List.append_eq]
    rw [ih (pw * g)]
    have hp : pw * g * g ^ t.length = pw * g ^ (t.length + 1) := by ring
    rw [hp]

omit [DecidableEq F] in
/-- Chunked evaluation starting at chunk index j agrees with the sequential
pass started at the corresponding offset. -/
theorem distribute_powers_par_from (g c : F) (k : Nat) :
    ∀ (l : List F) (j : Nat),
      (((chunksList k l).enumFrom j).map
        (fun q => distribute_powers_aux g q.2 (c * g ^ ((k + 1) * q.1)))).flatten =
      distribute_powers_aux g l (c * g ^ ((k + 1) * j))
  | [], j => by simp [chunksList, distribute_powers_aux]
  | x :: xs, j => by
    have hrec := distribute_powers_par_from g c k (xs.drop k) (j + 1)
    rw [show chunksList k (x :: xs) = (x :: xs.take k) :: chunksList k (xs.drop k) from by
      rw [chunksList]]
    rw [List.enumFrom_cons, List.map_cons, List.flatten_cons, hrec]
    rw [show x :: xs = (x :: xs.take k) ++ xs.drop k from by simp]
    rw [distribute_powers_aux_append]
    by_cases hk : k ≤ xs.length
    · have hlen : (x :: xs.take k).length = k + 1 := by
        simp [List.length_take, Nat.min_eq_left hk]
      rw [hlen]
      congr 2
      rw [show (k + 1) * (j + 1) = (k + 1) * j + (k + 1) from by ring, pow_add]
      ring
    · have hdrop : xs.drop k = [] :=
        List.drop_eq_nil_of_le (Nat.le_of_lt (Nat.lt_of_not_le hk))
      rw [hdrop]
      simp [distribute_powers_aux]
termination_by l _ => l.length
decreasing_by simp [List.length_drop]; omega

/-- C8: `distribute_powers_and_mul_by_const` multiplies the i-th coefficient
by `c·g^i`, and the parallel chunked implementation — each chunk's starting
power `c·g^(chunk start)` precomputed by exponentiation, chunks of any
positive size k + 1 — produces output identical to the sequential
running-product pass. -/
theorem c8_distribute_powers {F : Type} [Field F] (coeffs : List F) (g c : F) (k : Nat) :
    (∀ i : Nat, (distribute_powers_and_mul_by_const coeffs g c)[i]? =
      (coeffs[i]?).map (fun a => a * (c * g ^ i))) ∧
    distribute_powers_par coeffs g c k = distribute_powers_and_mul_by_const coeffs g c := by
  constructor
  · intro i
    exact distribute_powers_aux_getElem g coeffs c i
  · unfold distribute_powers_par distribute_powers_and_mul_by_const
    have h := distribute_powers_par_from g c k coeffs 0
    simp only [Nat.mul_zero, pow_zero, mul_one] at h
    simpa [List.enum] using h

/-- Selecting with the sign bit the serializer derived from y itself
(`y > -y`) recovers y. -/
theorem select_roundtrip {F : Type} [Field F] [DecidableEq F] {cap : FieldCap F}
    (hl : LawfulCap cap) (y : F) :
    (if Bool.xor (cap.flt y (-y)) (cap.flt (-y) y) then y else -y) = y := by
  by_cases hy : (-y : F) = y
  · rw [hy]
    exact ite_self y
  · have hne : y ≠ -y := fun h => hy h.symm
    cases hb : cap.flt y (-y) with
    | true =>
      have hba := hl.flt_asymm _ _ hb
      simp [hba]
    | false =>
      have hba : cap.flt (-y) y = true := by
        rcases hl.flt_total y (-y) hne with h | h
        · rw [h] at hb; cases hb
        · exact h
      simp [hba]

/-- C2: for every valid affine point P — the identity stored in its
canonical representation, finite points on the curve, and P in the
prime-order subgroup (the library constructs only such points, and the
compressed decoder re-validates membership) — deserializing the
serialization of P returns P, both for the compressed and for the
uncompressed encoding. -/
theorem c2_serialization_roundtrip {F : Type} [Field F] [DecidableEq F]
    (C : Curve F) (cap : FieldCap F) (hl : LawfulCap cap) (P : GroupAffine F)
    (hid : P.infinity = true → P = zeroA)
    (hcurve : is_on_curve C P = true)
    (hsub : is_in_correct_subgroup_assuming_on_curve C P = true) :
    deserializeA C cap (serializeA cap P) = Except.ok P ∧
    deserialize_uncompressedA C (serialize_uncompressedA P) = Except.ok P := by
  by_cases hinf : P.infinity = true
  · have hP := hid hinf
    subst hP
    constructor
    · simp [serializeA, deserializeA, zeroA, SWFlags.is_infinity]
    · have hsub' : is_in_correct_subgroup_assuming_on_curve C
          (⟨0, 1, true⟩ : GroupAffine F) = true := hsub
      simp [serialize_uncompressedA, deserialize_uncompressedA, deserialize_uncheckedA,
        zeroA, SWFlags.is_infinity, hsub']
  · have hinf' : P.infinity = false := by
      cases h : P.infinity
      · rfl
      · exact absurd h hinf
    obtain ⟨x, y, i⟩ := P
    simp only at hinf'
    subst hinf'
    have hy : y * y = x * x * x + C.a * x + C.b := by
      simpa [is_on_curve] using hcurve
    constructor
    · have hser : serializeA cap (⟨x, y, false⟩ : GroupAffine F) =
          (x, SWFlags.from_y_sign (cap.flt (-y) y)) := rfl
      rw [hser]
      cases hb : cap.flt (-y) y with
      | false =>
        have hsel := select_roundtrip hl y
        rw [hb] at hsel
        have hget := get_point_from_x_of_root C cap hl x false y hy
        rw [hsel] at hget
        simp [deserializeA, SWFlags.from_y_sign, SWFlags.is_infinity, SWFlags.is_positive,
          hget, hsub]
      | true =>
        have hsel := select_roundtrip hl y
        rw [hb] at hsel
        have hget := get_point_from_x_of_root C cap hl x true y hy
        rw [hsel] at hget
        simp [deserializeA, SWFlags.from_y_sign, SWFlags.is_infinity, SWFlags.is_positive,
          hget, hsub]
    · simp [serialize_uncompressedA, deserialize_uncompressedA, deserialize_uncheckedA,
        SWFlags.is_infinity, hsub]

/-- C2 witness: the 2-torsion point (3, 0) of y² = x³ + 1 over ℤ/7, with
the subgroup order 2 recorded in the curve's `orderBits`. -/
theorem c2_serialization_roundtrip_witness :
    LawfulCap capZ7 ∧
    ((⟨3, 0, false⟩ : GroupAffine (ZMod 7)).infinity = true →
      (⟨3, 0, false⟩ : GroupAffine (ZMod 7)) = zeroA) ∧
    is_on_curve curveZ7 ⟨3, 0, false⟩ = true ∧
    is_in_correct_subgroup_assuming_on_curve curveZ7 ⟨3, 0, false⟩ = true ∧
    (deserializeA curveZ7 capZ7 (serializeA capZ7 ⟨3, 0, false⟩) = Except.ok ⟨3, 0, false⟩ ∧
      deserialize_uncompressedA curveZ7 (serialize_uncompressedA ⟨3, 0, false⟩) =
        Except.ok ⟨3, 0, false⟩) :=
  ⟨lawful_capZ7, by decide, by decide, by decide,
    c2_serialization_roundtrip curveZ7 capZ7 lawful_capZ7 ⟨3, 0, false⟩
      (by decide) (by decide) (by decide)⟩

/-- C3 counterexample: the compressed decoder does not reject the infinity
flag accompanied by a nonzero x — over ℤ/7 it accepts (1, infinity-flag)
and returns the identity, ignoring the stored 1. -/
theorem c3_infinity_flag_counterexample :
    deserializeA curveZ7 capZ7 ((1 : ZMod 7), SWFlags.infinity) = .ok zeroA ∧
    (1 : ZMod 7) ≠ 0 := by
  decide

/-- C3 (amended): only `from_random_bytes` rejects the infinity flag paired
with a nonzero x (returning `none`); `CanonicalDeserialize::deserialize`
accepts any x alongside the infinity flag, ignores the x value, and returns
the identity point — the decode failures it can report are a non-residue x
or a failed subgroup check. -/
theorem c3_infinity_flag_handling {F : Type} [Field F] [DecidableEq F]
    (C : Curve F) (cap : FieldCap F) (x : F) :
    (x ≠ 0 → from_random_bytes C cap (some (x, SWFlags.infinity)) = none) ∧
    deserializeA C cap (x, SWFlags.infinity) = .ok zeroA := by
  constructor
  · intro hx
    simp [from_random_bytes, SWFlags.is_infinity, SWFlags.is_positive, hx]
  · simp [deserializeA, SWFlags.is_infinity]

/-- C3 witness: the amended behaviour at x = 1 over ℤ/7. -/
theorem c3_infinity_flag_handling_witness :
    (1 : ZMod 7) ≠ 0 ∧
    from_random_bytes curveZ7 capZ7 (some (1, SWFlags.infinity)) = none ∧
    deserializeA curveZ7 capZ7 (1, SWFlags.infinity) = .ok zeroA :=
  ⟨by decide, (c3_infinity_flag_handling curveZ7 capZ7 1).1 (by decide),
    (c3_infinity_flag_handling curveZ7 capZ7 1).2⟩


end SWJac
